import Mathlib

/-!
Shallow embedding of the streaming comment-removal scanner of
`src/decomments.rs` (repository voidregreso/RemoveCommentary).

The Rust scanner is an iterator adapter `WithoutComments` over a stream of
characters.  Each call to the internal step function `next_` first refills a
bounded lookahead buffer, then acts according to the current mode
(inside a string literal, inside a comment, or plain code) and returns a
tri-state result: emit one character, keep working, or end of stream.
A fourth outcome, `fatal`, models the Rust process abort on an unmatched
close pattern of a rule with `allow_close_pat = false` (and the
unreachable unwrap of an empty buffer).

Characters are Lean `Char`, the `VecDeque` buffer is a `List Char` whose
length is bounded by the capacity fixed at construction, and the upstream
iterator is the remaining input `List Char`.
-/

set_option autoImplicit false

namespace Decomments

/-- One comment rule, field for field the Rust struct `Comment`. -/
structure Comment where
  open_pat : List Char
  close_pat : List Char
  nests : Bool
  keep_close_pat : Bool
  allow_close_pat : Bool
deriving DecidableEq

/-- The apostrophe character, written by code point to keep source text plain. -/
def squote : Char := Char.ofNat 39

/-- The backtick character, written by code point to keep source text plain. -/
def btick : Char := Char.ofNat 96

/-- Rust constant `SL_COMMENT`. -/
def SL_COMMENT : Comment := ⟨"//".toList, "\n".toList, false, true, true⟩

/-- Rust constant `BLOCK_COMMENT`. -/
def BLOCK_COMMENT : Comment := ⟨"/*".toList, "*/".toList, false, false, false⟩

/-- Rust constant `RUSTC`: the code-like (Rust and C++) configuration. -/
def RUSTC : List Comment := [SL_COMMENT, BLOCK_COMMENT]

/-- Rust constant `PYTHON`: the scripting configuration. -/
def PYTHON : List Comment :=
  [⟨"#".toList, "\n".toList, false, true, true⟩,
   ⟨[squote, squote, squote], [squote, squote, squote], false, false, false⟩,
   ⟨"\"\"\"".toList, "\"\"\"".toList, false, false, false⟩]

/-- Rust constant `HASKELL`: line comments and nesting block comments. -/
def HASKELL : List Comment :=
  [⟨"--".toList, "\n".toList, false, true, true⟩,
   ⟨"\x7b-".toList, "-\x7d".toList, true, false, false⟩]

/-- Rust constant `MARKUP`. -/
def MARKUP : List Comment := [⟨"<!--".toList, "-->".toList, false, false, false⟩]

/-- `Buf::matches` (`self.iter().take(pat.len()).copied().eq(pat.chars())`)
with the Rust `pat.len()` -- a UTF-8 byte count -- rendered as the
pattern's character count.  The two counts coincide exactly when every
character of the pattern is ASCII, which holds for every pattern of every
configuration in this repository; see `Buf.matchesBytes` for the general
byte-faithful rendering and `matchesBytes_eq_matches_of_ascii` for the
agreement. -/
def Buf.matches (buf : List Char) (pat : List Char) : Bool :=
  buf.take pat.length == pat

/-- The UTF-8 byte length of a pattern: what `pat.len()` returns on the
Rust `&str`. -/
def strLen (pat : List Char) : Nat :=
  pat.foldl (fun n c => n + c.utf8Size) 0

/-- `Buf::matches` rendered byte-faithfully: the Rust code takes
`pat.len()` -- the pattern's UTF-8 byte count -- characters from the
buffer and compares them, as a sequence, against the pattern's
characters. -/
def Buf.matchesBytes (buf : List Char) (pat : List Char) : Bool :=
  buf.take (strLen pat) == pat

/-- `Buf::fill_up`: keep pulling characters from the upstream iterator and
pushing them at the back of the buffer until the buffer holds `cap`
characters or the upstream is exhausted.  Returns the new buffer and the
remaining upstream. -/
def Buf.fill_up (cap : Nat) (buf : List Char) (input : List Char) :
    List Char × List Char :=
  if buf.length = cap then (buf, input)
  else
    match input with
    | [] => (buf, [])
    | c :: rest => Buf.fill_up cap (buf ++ [c]) rest

/-- The result of one internal step of the scanner: the Rust `TriOpt`
(`Some` / `None` / `Wait`) extended with `fatal` for the process abort. -/
inductive StepRes where
  | emit (c : Char)
  | eos
  | wait
  | fatal
deriving DecidableEq

/-- The scanner state, field for field the Rust struct `WithoutComments`
(the upstream iterator is the list `input`; `bufLen` is the buffer
capacity fixed at construction). -/
structure WithoutComments where
  input : List Char
  buf : List Char
  bufLen : Nat
  comments : List Comment
  state : Option (Nat × Option Nat)
  in_string : Bool
  string_delimiter : Option Char
  escape_next : Bool
deriving DecidableEq

/-- `WithoutComments::new`. -/
def WithoutComments.new (input : List Char) (comments : List Comment)
    (buf_len : Nat) : WithoutComments :=
  ⟨input, [], buf_len, comments, none, false, none, false⟩

/-- Placeholder rule for the (unreachable) out-of-range index in
`self.comments[idx]`. -/
def defaultComment : Comment := ⟨[], [], false, false, false⟩

/-- The in-string branch of `next_`, entered with `s.buf = c :: rest` and
`s.in_string = true`: pop the front character and emit it, maintaining the
escape flag and closing the string on an unescaped delimiter.  The state
is rebuilt field by field (the guard guarantees `in_string = true`, so
writing `true` back leaves it unchanged); only the fields the Rust branch
mutates differ from the input state. -/
def stringStep : WithoutComments → Char → List Char → WithoutComments × StepRes
  | ⟨input, _, bufLen, comments, state, _, string_delimiter, escape_next⟩, c, rest =>
    if c = '\\' ∧ escape_next = false then
      (⟨input, rest, bufLen, comments, state, true, string_delimiter, true⟩,
       .emit c)
    else if some c = string_delimiter ∧ escape_next = false then
      (⟨input, rest, bufLen, comments, state, false, none, false⟩, .emit c)
    else
      (⟨input, rest, bufLen, comments, state, true, string_delimiter, false⟩,
       .emit c)

/-- The in-comment branch of `next_`, entered with `s.buf = c :: rest` and
`s.state = some (idx, nesting)`: consume the close pattern (keeping it in
the buffer when `keep_close_pat`), or a nested open pattern, or one plain
character; never emits.  Fields not mutated by the Rust branch are rebuilt
unchanged (the guards guarantee `in_string = false` here). -/
def commentStep : WithoutComments → Nat → Option Nat → List Char →
    WithoutComments × StepRes
  | ⟨input, buf, bufLen, comments, _, in_string, string_delimiter, escape_next⟩,
    idx, nesting, rest =>
    let comment := comments.getD idx defaultComment
    if Buf.matches buf comment.close_pat then
      let buf1 := if comment.keep_close_pat then buf
                  else buf.drop comment.close_pat.length
      match nesting with
      | none =>
        (⟨input, buf1, bufLen, comments, none, in_string, string_delimiter,
          escape_next⟩, .wait)
      | some 0 =>
        (⟨input, buf1, bufLen, comments, none, in_string, string_delimiter,
          escape_next⟩, .wait)
      | some (d + 1) =>
        (⟨input, buf1, bufLen, comments, some (idx, some d), in_string,
          string_delimiter, escape_next⟩, .wait)
    else
      match nesting with
      | some depth =>
        if Buf.matches buf comment.open_pat then
          (⟨input, buf.drop comment.open_pat.length, bufLen, comments,
            some (idx, some (depth + 1)), in_string, string_delimiter,
            escape_next⟩, .wait)
        else
          (⟨input, rest, bufLen, comments, some (idx, some depth), in_string,
            string_delimiter, escape_next⟩, .wait)
      | none =>
        (⟨input, rest, bufLen, comments, some (idx, none), in_string,
          string_delimiter, escape_next⟩, .wait)

/-- The code-mode rule loop of `next_` (`for (idx, comment) in ...`): for
each rule in order, test its open pattern (enter the comment), then its
close pattern (fatal when `allow_close_pat` is false), then test the buffer
front for a string start (quote, or a backtick triple collapsed to a single
emitted backtick).  Falling out of the loop pops and emits one character.
Entered only with `state = none` and `in_string = false`. -/
def codeStep : WithoutComments → Nat → List Comment → WithoutComments × StepRes
  | s, _, [] =>
    match s with
    | ⟨input, buf, bufLen, comments, state, in_string, string_delimiter,
       escape_next⟩ =>
      match buf with
      | [] => (s, .fatal)
      | c :: rest =>
        (⟨input, rest, bufLen, comments, state, in_string, string_delimiter,
          escape_next⟩, .emit c)
  | s, idx, comment :: rules =>
    match s with
    | ⟨input, buf, bufLen, comments, state, in_string, string_delimiter,
       escape_next⟩ =>
      if Buf.matches buf comment.open_pat then
        (⟨input, buf.drop comment.open_pat.length, bufLen, comments,
          some (idx, if comment.nests then some 0 else none), in_string,
          string_delimiter, escape_next⟩, .wait)
      else if Buf.matches buf comment.close_pat ∧
          comment.allow_close_pat = false then
        (s, .fatal)
      else
        match buf with
        | c :: rest =>
          if c = '"' ∨ c = squote then
            (⟨input, rest, bufLen, comments, state, true, some c,
              escape_next⟩, .emit c)
          else if c = btick ∧ Buf.matches buf [btick, btick, btick] then
            (⟨input, buf.drop 3, bufLen, comments, state, true, some btick,
              escape_next⟩, .emit btick)
          else codeStep s (idx + 1) rules
        | [] => codeStep s (idx + 1) rules

/-- The dispatch of `next_` after the buffer refill: end of stream on an
empty buffer, else the string, comment, or code branch. -/
def stepAfterFill (s : WithoutComments) : WithoutComments × StepRes :=
  match s.buf with
  | [] => (s, .eos)
  | c :: rest =>
    if s.in_string then stringStep s c rest
    else
      match s.state with
      | some (idx, nesting) => commentStep s idx nesting rest
      | none => codeStep s 0 s.comments

/-- `WithoutComments::next_`: refill the buffer, then take one step. -/
def next_ : WithoutComments → WithoutComments × StepRes
  | ⟨input, buf, bufLen, comments, state, in_string, string_delimiter,
     escape_next⟩ =>
    match Buf.fill_up bufLen buf input with
    | (buf1, input1) =>
      stepAfterFill
        ⟨input1, buf1, bufLen, comments, state, in_string, string_delimiter,
         escape_next⟩

/-- The outcome of driving the scanner: normal end of stream, the fatal
abort, or fuel exhaustion (`more`); each carries the output emitted so far. -/
inductive RunRes where
  | ok (out : List Char)
  | fatal (out : List Char)
  | more (out : List Char)
deriving DecidableEq, Repr

/-- The iteration loop of `Iterator::next` run to completion with fuel:
repeat `next_`, collecting emitted characters, until end of stream or the
fatal abort. -/
def runAux : Nat → WithoutComments → List Char → RunRes
  | 0, _, acc => .more acc
  | fuel + 1, s, acc =>
    match next_ s with
    | (s', .emit c) => runAux fuel s' (acc ++ [c])
    | (_, .eos) => .ok acc
    | (s', .wait) => runAux fuel s' acc
    | (_, .fatal) => .fatal acc

/-- The loop body of the buffer-capacity computation of
`purge_commentaries`: widen the running maximum by the rule's open and
close pattern lengths. -/
def bufLenStep (buf_len : Nat) (c : Comment) : Nat :=
  let b1 := if c.open_pat.length > buf_len then c.open_pat.length else buf_len
  if c.close_pat.length > b1 then c.close_pat.length else b1

/-- The buffer-capacity computation of `purge_commentaries`: the maximum
open- or close-pattern length over the rule table, folded exactly as the
Rust loop does. -/
def computeBufLen (language : List Comment) : Nat :=
  language.foldl bufLenStep 0

/-- `IntoWithoutComments::purge_commentaries`: compute the buffer capacity
and assert it nonzero; `none` models the assertion failure (process abort),
`some` the constructed scanner. -/
def purge_commentaries (input : List Char) (language : List Comment) :
    Option WithoutComments :=
  if computeBufLen language = 0 then none
  else some (WithoutComments.new input language (computeBufLen language))

/-- Run the scanner over a whole input with the capacity that
`purge_commentaries` would compute: the `collect` of the Rust caller. -/
def strip (language : List Comment) (input : List Char) (fuel : Nat) : RunRes :=
  runAux fuel (WithoutComments.new input language (computeBufLen language)) []

/-- Iterate the state component of `next_`: the scanner state reached
after `n` internal steps. -/
def stepN : Nat → WithoutComments → WithoutComments
  | 0, s => s
  | n + 1, s => stepN n (next_ s).1

/-- Side condition of the idempotence claim at one text position: no
rule's open pattern occurs at the front of `t`, and no close pattern of
a rule with `allow_close_pat = false` occurs at the front of `t`. -/
def noBadPatAt (cfg : List Comment) (t : List Char) : Bool :=
  cfg.all fun r =>
    !(Buf.matches t r.open_pat) &&
      (r.allow_close_pat || !(Buf.matches t r.close_pat))

/-- Side condition of the idempotence claim over a whole text: scanning
`t` with the scanner's own string-literal rules (quote or apostrophe
opens a string, backslash escapes one character, the matching unescaped
delimiter closes it), every position outside a string literal presents
no rule's open pattern, no forbidden close pattern, and no backtick
triple.  The three string-mode cases mirror §4.2 of the specification;
the code-mode case is the claim's "contains no open pattern outside
strings" strengthened by the two conditions the counterexamples force. -/
def safeRun (cfg : List Comment) : Bool → Option Char → Bool → List Char → Bool
  | _, _, _, [] => true
  | true, delim, esc, c :: rest =>
    if c = '\\' ∧ esc = false then safeRun cfg true delim true rest
    else if some c = delim ∧ esc = false then safeRun cfg false none false rest
    else safeRun cfg true delim false rest
  | false, _, _, c :: rest =>
    noBadPatAt cfg (c :: rest) &&
      (if c = '"' ∨ c = squote then safeRun cfg true (some c) false rest
       else if Buf.matches (c :: rest) [btick, btick, btick] then false
       else safeRun cfg false none false rest)

/-- `fill_up` with an exhausted upstream leaves the buffer unchanged. -/
lemma fill_up_nil (cap : Nat) (buf : List Char) :
    Buf.fill_up cap buf [] = (buf, []) := by
  unfold Buf.fill_up
  split <;> rfl

/-- A pattern of ASCII characters (one UTF-8 byte each) has byte length
equal to its character count. -/
lemma strLen_eq_length (pat : List Char) (h : ∀ c ∈ pat, c.utf8Size = 1) :
    strLen pat = pat.length := by
  suffices h2 : ∀ (l : List Char) (acc : Nat), (∀ c ∈ l, c.utf8Size = 1) →
      l.foldl (fun n c => n + c.utf8Size) acc = acc + l.length by
    simpa [strLen] using h2 pat 0 h
  intro l
  induction l with
  | nil => intro acc _; simp
  | cons c cs ih =>
    intro acc hall
    simp only [List.foldl_cons, List.length_cons]
    rw [ih (acc + c.utf8Size) (fun d hd => hall d (List.mem_cons_of_mem _ hd)),
      hall c (List.mem_cons_self c cs)]
    omega

/-- On all-ASCII patterns -- every pattern of this repository's
configurations -- the byte-faithful `Buf.matchesBytes` agrees with the
character-count rendering `Buf.matches` used by the scanner embedding. -/
lemma matchesBytes_eq_matches_of_ascii (buf pat : List Char)
    (h : ∀ c ∈ pat, c.utf8Size = 1) :
    Buf.matchesBytes buf pat = Buf.matches buf pat := by
  unfold Buf.matchesBytes Buf.matches
  rw [strLen_eq_length pat h]

/-- C7, counterexample.  For the one-character, two-byte pattern `é`,
the Rust `Buf::matches` takes `pat.len() = 2` characters from the
buffer: against the buffer `['é', 'x']` it returns false although the
buffer's first `len(p) = 1` characters (as the specification counts,
in code points) equal the pattern exactly; and against the truncated
buffer `['é']` -- fewer characters than the pattern's `len()` -- it
returns true. -/
theorem c7_counterexample :
    Buf.matchesBytes ['é', 'x'] ['é'] = false ∧
    List.take (['é'] : List Char).length ['é', 'x'] = ['é'] ∧
    Buf.matchesBytes ['é'] ['é'] = true ∧
    (['é'] : List Char).length < strLen ['é'] := by
  refine ⟨by decide, by decide, by decide, by decide⟩

/-- C7, amended.  `Buf::matches(p)` is true exactly when the buffer's
first `strLen p` characters equal `p`, where `strLen p` is the UTF-8
byte length that the Rust `pat.len()` returns; for a pattern of ASCII
characters only -- in particular every pattern of this repository's
configurations -- this is the claim as stated: true iff the buffer's
first `len(p)` characters equal `p`, and a buffer holding fewer
characters than `p` never matches. -/
theorem c7_matches_amended :
    (∀ buf pat : List Char,
        Buf.matchesBytes buf pat = true ↔ buf.take (strLen pat) = pat) ∧
    (∀ buf pat : List Char, (∀ c ∈ pat, c.utf8Size = 1) →
        ((Buf.matchesBytes buf pat = true ↔ buf.take pat.length = pat) ∧
          (buf.length < pat.length → Buf.matchesBytes buf pat = false))) := by
  constructor
  · intro buf pat
    simp [Buf.matchesBytes]
  · intro buf pat h
    have hs : strLen pat = pat.length := strLen_eq_length pat h
    constructor
    · simp [Buf.matchesBytes, hs]
    · intro hlt
      simp only [Buf.matchesBytes, hs, beq_eq_false_iff_ne, ne_eq]
      intro hc
      have hlen := congrArg List.length hc
      simp only [List.length_take] at hlen
      omega

/-- Witness for C7 (amended) at a concrete ASCII pattern and a shorter
buffer. -/
theorem c7_matches_amended_witness :
    Buf.matchesBytes ['a'] ['a', 'b'] = false :=
  (c7_matches_amended.2 ['a'] ['a', 'b'] (by decide)).2 (by decide)

/-- C1, counterexample.  With the scripting (Python) configuration, the
input with a lone triple double-quote passes through unchanged and ends
normally: no unbalanced-delimiter fatal error occurs, because the quote
at the buffer front enters string mode during the first rule's loop
iteration, before the triple-quote rule's close pattern is tested. -/
theorem c1_counterexample :
    strip PYTHON ("a \"\"\" b".toList) 100 = .ok ("a \"\"\" b".toList) := by
  decide

/-- C1, amended.  A lone `\x22\x22\x22` under the Python configuration is
silently passed through unchanged (string detection preempts the close
check); the unbalanced-close fatal error does fire for a forbidden close
pattern that does not begin with a quote character, such as the Haskell
block-comment closer. -/
theorem c1_amended :
    strip PYTHON ("a \"\"\" b".toList) 100 = .ok ("a \"\"\" b".toList) ∧
    strip HASKELL ("a -\x7d b".toList) 100 = .fatal ("a ".toList) := by
  constructor <;> decide

/-- C3.  Single-line comment stripped, newline retained, with the
code-like configuration. -/
theorem c3_single_line :
    strip RUSTC ("a // drop this\nb".toList) 200 = .ok ("a \nb".toList) := by
  decide

/-- C4.  Nesting block comment with the Haskell configuration: both
nested opens must be closed before the comment ends. -/
theorem c4_nesting :
    strip HASKELL ("a \x7b- x \x7b- y -\x7d z -\x7d b".toList) 200 =
      .ok ("a  b".toList) := by
  decide

/-- C5.  In string mode a backslash with no pending escape sets the
one-character escape immunity and is emitted; with the immunity pending,
the next character is emitted, the string stays open even if the
character equals the delimiter, and the immunity is cleared; hence the
string with an escaped quote passes through whole. -/
theorem c5_escape :
    (∀ (s : WithoutComments) (rest : List Char), s.input = [] →
        s.buf = '\\' :: rest → s.in_string = true → s.escape_next = false →
        next_ s = ({ s with buf := rest, escape_next := true }, .emit '\\')) ∧
    (∀ (s : WithoutComments) (c : Char) (rest : List Char), s.input = [] →
        s.buf = c :: rest → s.in_string = true → s.escape_next = true →
        next_ s = ({ s with buf := rest, escape_next := false }, .emit c)) ∧
    strip RUSTC ("\"a\\\"b\"".toList) 100 = .ok ("\"a\\\"b\"".toList) := by
  refine ⟨?_, ?_, by decide⟩
  · intro s rest hin hbuf hstr hesc
    cases s
    simp_all [next_, fill_up_nil, stepAfterFill, stringStep]
  · intro s c rest hin hbuf hstr hesc
    cases s
    simp_all [next_, fill_up_nil, stepAfterFill, stringStep]

/-- Witness for C5: the backslash step and the escaped-delimiter step at
concrete scanner states. -/
theorem c5_escape_witness :
    next_ ⟨[], ['\\', 'q'], 2, RUSTC, none, true, some '"', false⟩ =
      (⟨[], ['q'], 2, RUSTC, none, true, some '"', true⟩, .emit '\\') ∧
    next_ ⟨[], ['"', 'x'], 2, RUSTC, none, true, some '"', true⟩ =
      (⟨[], ['x'], 2, RUSTC, none, true, some '"', false⟩, .emit '"') :=
  ⟨c5_escape.1 _ _ rfl rfl rfl rfl, c5_escape.2.1 _ _ _ rfl rfl rfl rfl⟩

/-- C6.  End-of-input leniency: with both the buffer and the upstream
exhausted, the step reports end of stream regardless of mode, and an
input ending inside an unterminated comment yields the output produced
so far with no error and nothing extra. -/
theorem c6_eos_lenient :
    (∀ s : WithoutComments, s.buf = [] → s.input = [] → next_ s = (s, .eos)) ∧
    strip RUSTC ("a /* unterminated".toList) 200 = .ok ("a ".toList) := by
  refine ⟨?_, by decide⟩
  intro s hbuf hin
  cases s
  simp_all [next_, fill_up_nil, stepAfterFill]

/-- Witness for C6 at a concrete exhausted scanner. -/
theorem c6_eos_lenient_witness :
    next_ (WithoutComments.new [] RUSTC 2) =
      (WithoutComments.new [] RUSTC 2, .eos) :=
  c6_eos_lenient.1 _ rfl rfl

/-- C10.  In code mode, a buffer holding a backtick triple (capacity 3,
as the Python configuration provides) is consumed whole while a single
backtick is emitted, and the scanner enters string mode with the single
backtick as delimiter; consequently the string closes at the next lone
backtick and backtick triples are not passed through verbatim. -/
theorem c10_backtick_triple :
    (∀ input : List Char,
        next_ ⟨input, [btick, btick, btick], 3, PYTHON, none, false, none, false⟩ =
          (⟨input, [], 3, PYTHON, none, true, some btick, false⟩, .emit btick)) ∧
    strip PYTHON ['a', btick, btick, btick, 'b', btick, 'c'] 100 =
      .ok ['a', btick, 'b', btick, 'c'] ∧
    (['a', btick, 'b', btick, 'c'] : List Char) ≠
      ['a', btick, btick, btick, 'b', btick, 'c'] := by
  refine ⟨?_, by decide, by decide⟩
  intro input
  have hf : Buf.fill_up 3 [btick, btick, btick] input =
      ([btick, btick, btick], input) := by
    rw [Buf.fill_up.eq_def]
    simp
  simp only [next_, hf]
  simp +decide [stepAfterFill, codeStep, Buf.matches, PYTHON, squote, btick,
    defaultComment]

/-- C8, counterexample.  A table whose single rule has pattern `//` to
open and the empty string to close is invalid by the claim (empty close
pattern), yet scanner construction succeeds because the assertion only
requires the maximum pattern length to be nonzero. -/
theorem c8_counterexample :
    (purge_commentaries [] [⟨"//".toList, [], false, false, false⟩]).isSome =
      true := by
  decide

/-- The per-rule fold step of `computeBufLen` is the maximum of the
accumulator and the two pattern lengths. -/
lemma bufLenStep_eq_max (acc : Nat) (c : Comment) :
    bufLenStep acc c = max (max acc c.open_pat.length) c.close_pat.length := by
  simp only [bufLenStep]
  split_ifs <;> omega

/-- The fold of `computeBufLen` is zero exactly when the accumulator is
zero and every rule's patterns are empty. -/
lemma foldl_bufLen_zero : ∀ (l : List Comment) (acc : Nat),
    (l.foldl bufLenStep acc = 0) ↔
      (acc = 0 ∧ ∀ r ∈ l, r.open_pat.length = 0 ∧ r.close_pat.length = 0) := by
  intro l
  induction l with
  | nil => simp
  | cons c rest ih =>
    intro acc
    rw [List.foldl_cons, ih, bufLenStep_eq_max]
    simp only [List.forall_mem_cons, Nat.max_eq_zero_iff]
    tauto

/-- The fold of `computeBufLen` only grows the accumulator. -/
lemma foldl_bufLen_mono : ∀ (l : List Comment) (acc : Nat),
    acc ≤ l.foldl bufLenStep acc := by
  intro l
  induction l with
  | nil => intro acc; exact Nat.le_refl acc
  | cons c rest ih =>
    intro acc
    rw [List.foldl_cons]
    exact Nat.le_trans (by rw [bufLenStep_eq_max]; omega) (ih (bufLenStep acc c))

/-- Every rule's pattern lengths are bounded by the fold of
`computeBufLen`, whatever the accumulator. -/
lemma foldl_bufLen_le : ∀ (l : List Comment) (acc : Nat), ∀ r ∈ l,
    r.open_pat.length ≤ l.foldl bufLenStep acc ∧
    r.close_pat.length ≤ l.foldl bufLenStep acc := by
  intro l
  induction l with
  | nil => intro acc r hr; cases hr
  | cons c rest ih =>
    intro acc r hr
    rw [List.foldl_cons]
    rcases List.mem_cons.mp hr with rfl | hr'
    · rw [bufLenStep_eq_max]
      have h1 := foldl_bufLen_mono rest
        (max (max acc r.open_pat.length) r.close_pat.length)
      omega
    · exact ih (bufLenStep acc c) r hr'

/-- Every rule's pattern lengths are bounded by the computed capacity. -/
lemma computeBufLen_le (l : List Comment) (r : Comment) (hr : r ∈ l) :
    r.open_pat.length ≤ computeBufLen l ∧
    r.close_pat.length ≤ computeBufLen l :=
  foldl_bufLen_le l 0 r hr

/-- C8, amended.  Scanner construction fails fast exactly when the
maximum open- or close-pattern length over the table is zero, i.e. when
the table is empty or every rule has both patterns empty; a table
containing some rule with an empty pattern is still accepted as long as
any pattern anywhere in the table is nonempty. -/
theorem c8_amended (language : List Comment) (input : List Char) :
    purge_commentaries input language = none ↔
      ∀ r ∈ language, r.open_pat = [] ∧ r.close_pat = [] := by
  have h1 : purge_commentaries input language = none ↔
      computeBufLen language = 0 := by
    unfold purge_commentaries
    split <;> simp_all
  rw [h1, computeBufLen, foldl_bufLen_zero]
  simp [List.length_eq_zero]

/-- The code-mode rule loop preserves mode exclusivity: entered with
`in_string = false` and `state = none`, it leaves at least one of the two
inert. -/
lemma codeStep_mode : ∀ (rules : List Comment) (s : WithoutComments) (idx : Nat),
    s.in_string = false → s.state = none →
    ((codeStep s idx rules).1.in_string = false ∨
      (codeStep s idx rules).1.state = none) := by
  intro rules
  induction rules with
  | nil =>
    intro s idx h1 h2
    obtain ⟨i, b, bl, cm, st, is, sd, es⟩ := s
    simp only at h1 h2
    subst h1; subst h2
    cases b <;> simp [codeStep]
  | cons cmt rest ih =>
    intro s idx h1 h2
    obtain ⟨i, b, bl, cm, st, is, sd, es⟩ := s
    simp only at h1 h2
    subst h1; subst h2
    rcases b with _ | ⟨c, bs⟩
    · simp only [codeStep]
      split_ifs <;>
        first
          | exact ih ⟨i, [], bl, cm, none, false, sd, es⟩ (idx + 1) rfl rfl
          | simp
    · simp only [codeStep]
      split_ifs <;>
        first
          | exact ih ⟨i, c :: bs, bl, cm, none, false, sd, es⟩ (idx + 1) rfl rfl
          | simp

/-- One internal step preserves mode exclusivity. -/
lemma next_mode (s : WithoutComments)
    (h : s.in_string = false ∨ s.state = none) :
    ((next_ s).1.in_string = false ∨ (next_ s).1.state = none) := by
  obtain ⟨i, b, bl, cm, st, is, sd, es⟩ := s
  simp only at h
  simp only [next_]
  rcases hfill : Buf.fill_up bl b i with ⟨b1, i1⟩
  simp only [stepAfterFill]
  cases b1 with
  | nil => simpa using h
  | cons c rest =>
    cases is with
    | false =>
      simp only [Bool.false_eq_true, if_false]
      cases st with
      | none => exact codeStep_mode cm _ 0 rfl rfl
      | some p =>
        obtain ⟨idx, nst⟩ := p
        left
        simp only [commentStep]
        split_ifs <;> rcases nst with _ | ⟨_ | d⟩ <;> simp
    | true =>
      have hst : st = none := by simpa using h
      subst hst
      simp only [if_true]
      simp only [stringStep]
      split_ifs <;> simp

/-- Mode exclusivity is preserved by any number of steps. -/
lemma stepN_mode (n : Nat) : ∀ s : WithoutComments,
    (s.in_string = false ∨ s.state = none) →
    ((stepN n s).in_string = false ∨ (stepN n s).state = none) := by
  induction n with
  | zero => intro s h; exact h
  | succ n ih => intro s h; exact ih _ (next_mode s h)

/-- C9.  Although the scanner keeps `in_string` and the comment `state` as
independent fields, every state reachable from a freshly constructed
scanner by any sequence of internal steps has `in_string = false` or
`state = none`: the scanner is never simultaneously inside a string and
inside a comment. -/
theorem c9_mode_exclusive (comments : List Comment) (input : List Char)
    (n : Nat) :
    (stepN n (WithoutComments.new input comments
        (computeBufLen comments))).in_string = false ∨
    (stepN n (WithoutComments.new input comments
        (computeBufLen comments))).state = none :=
  stepN_mode n _ (Or.inl rfl)

/-- Closed form of the buffer refill: starting within capacity, refilling
yields the first `cap` characters of the remaining text, the rest staying
upstream. -/
lemma fill_up_spec : ∀ (input buf : List Char) (cap : Nat),
    buf.length ≤ cap →
    Buf.fill_up cap buf input =
      ((buf ++ input).take cap, (buf ++ input).drop cap) := by
  intro input
  induction input with
  | nil =>
    intro buf cap h
    rw [fill_up_nil, List.append_nil, List.take_of_length_le h,
      List.drop_eq_nil_of_le h]
  | cons c rest ih =>
    intro buf cap h
    rw [Buf.fill_up.eq_def]
    split_ifs with hlen
    · rw [← hlen, List.take_left, List.drop_left]
    · have h2 : (buf ++ [c]).length ≤ cap := by
        simp only [List.length_append, List.length_cons, List.length_nil]
        omega
      show Buf.fill_up cap (buf ++ [c]) rest =
        ((buf ++ c :: rest).take cap, (buf ++ c :: rest).drop cap)
      rw [ih (buf ++ [c]) cap h2]
      simp [List.append_assoc]

/-- Testing a pattern that fits within the capacity against the filled
buffer is the same as testing it against the full remaining text. -/
lemma matches_take (t pat : List Char) (cap : Nat) (h : pat.length ≤ cap) :
    Buf.matches (t.take cap) pat = Buf.matches t pat := by
  unfold Buf.matches
  rw [List.take_take, Nat.min_eq_left h]

/-- A backtick triple matched in the filled buffer is present at the
front of the full remaining text. -/
lemma matches_btick_of_take (t : List Char) (cap : Nat)
    (h : Buf.matches (t.take cap) [btick, btick, btick] = true) :
    Buf.matches t [btick, btick, btick] = true := by
  unfold Buf.matches at h ⊢
  rw [List.take_take] at h
  have h' := eq_of_beq h
  have hlen := congrArg List.length h'
  rw [List.length_take] at hlen
  have hmin : min ([btick, btick, btick] : List Char).length cap
      = ([btick, btick, btick] : List Char).length := by omega
  rw [hmin] at h'
  exact beq_iff_eq.mpr h'

/-- Unpack `noBadPatAt` into per-rule facts. -/
lemma noBadPatAt_spec (cfg : List Comment) (t : List Char)
    (h : noBadPatAt cfg t = true) :
    ∀ r ∈ cfg, Buf.matches t r.open_pat = false ∧
      (r.allow_close_pat = true ∨ Buf.matches t r.close_pat = false) := by
  rw [noBadPatAt, List.all_eq_true] at h
  intro r hr
  have h2 := h r hr
  simp only [Bool.and_eq_true, Bool.not_eq_true', Bool.or_eq_true] at h2
  obtain ⟨h3, h4⟩ := h2
  refine ⟨h3, ?_⟩
  rcases h4 with h5 | h5
  · exact Or.inl h5
  · exact Or.inr (by simpa using h5)

/-- The code-mode rule loop falls through to a plain emit when no rule's
open pattern matches, no forbidden close pattern matches, and the buffer
front does not start a string. -/
lemma codeStep_fallthrough :
    ∀ (rules : List Comment) (idx : Nat) (i : List Char) (c : Char)
      (bs : List Char) (bl : Nat) (cm : List Comment) (sd : Option Char)
      (es : Bool),
      (∀ r ∈ rules, Buf.matches (c :: bs) r.open_pat = false ∧
        (r.allow_close_pat = true ∨ Buf.matches (c :: bs) r.close_pat = false)) →
      ¬(c = '"' ∨ c = squote) →
      Buf.matches (c :: bs) [btick, btick, btick] = false →
      codeStep ⟨i, c :: bs, bl, cm, none, false, sd, es⟩ idx rules =
        (⟨i, bs, bl, cm, none, false, sd, es⟩, .emit c) := by
  intro rules
  induction rules with
  | nil =>
    intro idx i c bs bl cm sd es hall hq hb
    simp [codeStep]
  | cons r rs ih =>
    intro idx i c bs bl cm sd es hall hq hb
    obtain ⟨ho, hc⟩ := hall r (List.mem_cons_self r rs)
    have ho' : ¬ Buf.matches (c :: bs) r.open_pat = true := by simp [ho]
    have hc' : ¬ (Buf.matches (c :: bs) r.close_pat = true ∧
        r.allow_close_pat = false) := by
      rcases hc with h5 | h5 <;> simp [h5]
    have hb' : ¬ (c = btick ∧
        Buf.matches (c :: bs) [btick, btick, btick] = true) := by
      simp [hb]
    simp only [codeStep, if_neg ho', if_neg hc', if_neg hq, if_neg hb']
    exact ih (idx + 1) i c bs bl cm sd es
      (fun r2 hr2 => hall r2 (List.mem_cons_of_mem _ hr2)) hq hb

/-- The code-mode rule loop enters string mode and emits the quote when
the buffer front is a quote character and the first rule's open and
forbidden-close patterns do not match. -/
lemma codeStep_quote (r : Comment) (rs : List Comment) (idx : Nat)
    (i : List Char) (c : Char) (bs : List Char) (bl : Nat) (cm : List Comment)
    (sd : Option Char) (es : Bool)
    (ho : Buf.matches (c :: bs) r.open_pat = false)
    (hc : r.allow_close_pat = true ∨ Buf.matches (c :: bs) r.close_pat = false)
    (hq : c = '"' ∨ c = squote) :
    codeStep ⟨i, c :: bs, bl, cm, none, false, sd, es⟩ idx (r :: rs) =
      (⟨i, bs, bl, cm, none, true, some c, es⟩, .emit c) := by
  have ho' : ¬ Buf.matches (c :: bs) r.open_pat = true := by simp [ho]
  have hc' : ¬ (Buf.matches (c :: bs) r.close_pat = true ∧
      r.allow_close_pat = false) := by
    rcases hc with h5 | h5 <;> simp [h5]
  simp only [codeStep, if_neg ho', if_neg hc', if_pos hq]

/-- Driving the loop one step when the scanner emits a character. -/
lemma runAux_emit {fuel : Nat} {s s' : WithoutComments} {c : Char}
    {acc : List Char} (h : next_ s = (s', .emit c)) :
    runAux (fuel + 1) s acc = runAux fuel s' (acc ++ [c]) := by
  simp only [runAux, h]

/-- The pass-through induction: starting with no comment open, if the
remaining text is safe for the configuration in the current string mode,
the scanner copies the text verbatim, one character per step, and ends
normally. -/
lemma passThrough :
    ∀ (t : List Char) (cfg : List Comment) (k : Nat) (b i acc : List Char)
      (instr : Bool) (sd : Option Char) (es : Bool),
      cfg ≠ [] →
      (∀ r ∈ cfg, r.open_pat.length ≤ k + 1 ∧ r.close_pat.length ≤ k + 1) →
      b ++ i = t →
      b.length ≤ k + 1 →
      (instr = false → sd = none ∧ es = false) →
      safeRun cfg instr sd es t = true →
      runAux (t.length + 1) ⟨i, b, k + 1, cfg, none, instr, sd, es⟩ acc =
        .ok (acc ++ t) := by
  intro t
  induction t with
  | nil =>
    intro cfg k b i acc instr sd es hne hpat hbi hlen hmode hsafe
    obtain ⟨hb, hi⟩ := List.append_eq_nil.mp hbi
    subst hb; subst hi
    simp [runAux, next_, fill_up_nil, stepAfterFill]
  | cons c t' iht =>
    intro cfg k b i acc instr sd es hne hpat hbi hlen hmode hsafe
    have hfill : Buf.fill_up (k + 1) b i =
        (c :: t'.take k, t'.drop k) := by
      rw [fill_up_spec i b (k + 1) hlen, hbi, List.take_succ_cons,
        List.drop_succ_cons]
    have hlen2 : (t'.take k).length ≤ k + 1 :=
      Nat.le_trans (List.length_take_le k t') (Nat.le_succ k)
    have hbi2 : t'.take k ++ t'.drop k = t' := List.take_append_drop k t'
    have hbuf_eq : c :: t'.take k = (c :: t').take (k + 1) :=
      (List.take_succ_cons).symm
    simp only [List.length_cons]
    cases instr with
    | true =>
      simp only [safeRun] at hsafe
      split_ifs at hsafe with h1 h2
      · have hstep : next_ ⟨i, b, k + 1, cfg, none, true, sd, es⟩ =
            (⟨t'.drop k, t'.take k, k + 1, cfg, none, true, sd, true⟩,
              .emit c) := by
          simp only [next_, hfill, stepAfterFill, stringStep, if_true, if_pos h1]
        rw [runAux_emit hstep,
          iht cfg k (t'.take k) (t'.drop k) (acc ++ [c]) true sd true hne hpat
            hbi2 hlen2 (by simp) hsafe]
        simp
      · have hstep : next_ ⟨i, b, k + 1, cfg, none, true, sd, es⟩ =
            (⟨t'.drop k, t'.take k, k + 1, cfg, none, false, none, false⟩,
              .emit c) := by
          simp only [next_, hfill, stepAfterFill, stringStep, if_true, if_neg h1,
            if_pos h2]
        rw [runAux_emit hstep,
          iht cfg k (t'.take k) (t'.drop k) (acc ++ [c]) false none false hne
            hpat hbi2 hlen2 (fun _ => ⟨rfl, rfl⟩) hsafe]
        simp
      · have hstep : next_ ⟨i, b, k + 1, cfg, none, true, sd, es⟩ =
            (⟨t'.drop k, t'.take k, k + 1, cfg, none, true, sd, false⟩,
              .emit c) := by
          simp only [next_, hfill, stepAfterFill, stringStep, if_true, if_neg h1,
            if_neg h2]
        rw [runAux_emit hstep,
          iht cfg k (t'.take k) (t'.drop k) (acc ++ [c]) true sd false hne hpat
            hbi2 hlen2 (by simp) hsafe]
        simp
    | false =>
      obtain ⟨hsd, hes⟩ := hmode rfl
      subst hsd; subst hes
      simp only [safeRun, Bool.and_eq_true] at hsafe
      obtain ⟨hbad, hrest⟩ := hsafe
      have hrules := noBadPatAt_spec cfg (c :: t') hbad
      have hrules2 : ∀ r ∈ cfg, Buf.matches (c :: t'.take k) r.open_pat = false ∧
          (r.allow_close_pat = true ∨
            Buf.matches (c :: t'.take k) r.close_pat = false) := by
        intro r hr
        obtain ⟨hol, hcl⟩ := hpat r hr
        obtain ⟨h6, h7⟩ := hrules r hr
        rw [hbuf_eq, matches_take _ _ _ hol, matches_take _ _ _ hcl]
        exact ⟨h6, h7⟩
      by_cases hq : c = '"' ∨ c = squote
      · rcases cfg with _ | ⟨r0, rs⟩
        · exact absurd rfl hne
        obtain ⟨h8, h9⟩ := hrules2 r0 (List.mem_cons_self r0 rs)
        have hstep : next_ ⟨i, b, k + 1, r0 :: rs, none, false, none, false⟩ =
            (⟨t'.drop k, t'.take k, k + 1, r0 :: rs, none, true, some c, false⟩,
              .emit c) := by
          simp only [next_, hfill, stepAfterFill, if_false]
          exact codeStep_quote r0 rs 0 (t'.drop k) c (t'.take k) (k + 1)
            (r0 :: rs) none false h8 h9 hq
        rw [if_pos hq] at hrest
        rw [runAux_emit hstep,
          iht (r0 :: rs) k (t'.take k) (t'.drop k) (acc ++ [c]) true (some c)
            false hne hpat hbi2 hlen2 (by simp) hrest]
        simp
      · have hb4 : Buf.matches (c :: t') [btick, btick, btick] = false := by
          by_contra h10
          have h11 := Bool.not_eq_false _ |>.mp h10
          rw [if_neg hq, if_pos h11] at hrest
          exact absurd hrest (by simp)
        have hb3 : Buf.matches (c :: t'.take k) [btick, btick, btick] = false := by
          by_contra h10
          have h11 : Buf.matches (c :: t'.take k) [btick, btick, btick] = true :=
            Bool.not_eq_false _ |>.mp h10
          rw [hbuf_eq] at h11
          have h12 := matches_btick_of_take (c :: t') (k + 1) h11
          rw [h12] at hb4
          cases hb4
        have hstep : next_ ⟨i, b, k + 1, cfg, none, false, none, false⟩ =
            (⟨t'.drop k, t'.take k, k + 1, cfg, none, false, none, false⟩,
              .emit c) := by
          simp only [next_, hfill, stepAfterFill, if_false]
          exact codeStep_fallthrough cfg 0 (t'.drop k) c (t'.take k) (k + 1) cfg
            none false hrules2 hq hb3
        rw [if_neg hq, if_neg (by simp [hb4])] at hrest
        rw [runAux_emit hstep,
          iht cfg k (t'.take k) (t'.drop k) (acc ++ [c]) false none false hne
            hpat hbi2 hlen2 (fun _ => ⟨rfl, rfl⟩) hrest]
        simp

/-- C2, counterexample.  Two inputs satisfying the claim's hypothesis --
no substring anywhere (hence in particular outside strings) equals any
rule's open pattern -- yet not returned unchanged: `a */ b` under the
code-like configuration aborts with the unbalanced-close fatal error,
and a backtick triple under the Python configuration is collapsed to a
single backtick. -/
theorem c2_counterexample :
    (¬ ("//".toList <:+: ("a */ b".toList)) ∧
      ¬ ("/*".toList <:+: ("a */ b".toList)) ∧
      strip RUSTC ("a */ b".toList) 100 = .fatal ("a ".toList)) ∧
    (¬ ("#".toList <:+: ('a' :: btick :: btick :: btick :: ['b'])) ∧
      ¬ ([squote, squote, squote] <:+: ('a' :: btick :: btick :: btick :: ['b'])) ∧
      ¬ ("\"\"\"".toList <:+: ('a' :: btick :: btick :: btick :: ['b'])) ∧
      strip PYTHON ('a' :: btick :: btick :: btick :: ['b']) 100 =
        .ok ('a' :: btick :: ['b']) ∧
      ('a' :: btick :: ['b'] : List Char) ≠
        'a' :: btick :: btick :: btick :: ['b']) := by
  refine ⟨⟨by decide, by decide, by decide⟩,
    by decide, by decide, by decide, by decide, by decide⟩

/-- C2, amended.  For every configuration with at least one rule and all
patterns nonempty, and every input that -- scanning string literals the
way the scanner does -- presents at no code-mode position a rule's open
pattern, a close pattern of a rule with `allow_close_pat = false`, or a
backtick triple, the scanner returns the input unchanged, character for
character. -/
theorem c2_amended (cfg : List Comment) (x : List Char)
    (hne : cfg ≠ [])
    (hv : ∀ r ∈ cfg, r.open_pat ≠ [] ∧ r.close_pat ≠ [])
    (hsafe : safeRun cfg false none false x = true) :
    strip cfg x (x.length + 1) = .ok x := by
  obtain ⟨r0, rs, rfl⟩ : ∃ r0 rs, cfg = r0 :: rs := by
    cases cfg with
    | nil => exact absurd rfl hne
    | cons a l => exact ⟨a, l, rfl⟩
  have hmem : r0 ∈ r0 :: rs := List.mem_cons_self r0 rs
  have h1 : 1 ≤ computeBufLen (r0 :: rs) := by
    obtain ⟨ho, _⟩ := computeBufLen_le (r0 :: rs) r0 hmem
    have h2 : 0 < r0.open_pat.length :=
      List.length_pos.mpr (hv r0 hmem).1
    omega
  obtain ⟨k, hk⟩ : ∃ k, computeBufLen (r0 :: rs) = k + 1 :=
    ⟨computeBufLen (r0 :: rs) - 1, by omega⟩
  have hpat : ∀ r ∈ r0 :: rs,
      r.open_pat.length ≤ k + 1 ∧ r.close_pat.length ≤ k + 1 := by
    intro r hr
    have h3 := computeBufLen_le (r0 :: rs) r hr
    omega
  have h4 := passThrough x (r0 :: rs) k [] x [] false none false hne hpat
    rfl (by simp) (fun _ => ⟨rfl, rfl⟩) hsafe
  simp only [List.nil_append] at h4
  simpa [strip, WithoutComments.new, hk] using h4

/-- Witness for C2 (amended) at the specification's string-immunity
example: a comment marker inside a string literal is kept intact. -/
theorem c2_amended_witness :
    safeRun RUSTC false none false ("x = \"// keep me\"".toList) = true ∧
    strip RUSTC ("x = \"// keep me\"".toList)
        (("x = \"// keep me\"".toList).length + 1) =
      .ok ("x = \"// keep me\"".toList) :=
  ⟨by decide, c2_amended RUSTC _ (by decide) (by decide) (by decide)⟩

end Decomments
